import Mathlib

/- Verification of the appctx dependency-injection container.  The
   definitions below are a shallow embedding of src/appctx/container.py
   and src/appctx/decorators.py: the ApplicationContext state, its
   signature-driven dependency resolver, the fixpoint refresh loop, and
   the post-construct hook invoker.  Theorems about the individual claims
   follow the definitions. -/

namespace Appctx

/-- Names are Python identifier strings, modelled as their character
sequences so that comparisons compute inside the kernel. -/
abbrev Name := List Char

/-- Shorthand turning a string literal into a name. -/
def nm (s : String) : Name := s.data

/-- One attribute of a Python object, as seen through dir and getattr: its
name, whether it is callable, whether the post_construct decorator set the
marker on it, and whether calling it raises (some e) or returns (none). -/
structure Attr where
  name : Name
  callable : Bool
  isPostConstruct : Bool
  raises : Option Nat
deriving DecidableEq, Repr

/-- A Python object held by the container: its runtime type, an opaque
payload distinguishing values, its truthiness, and its attributes in
declaration order. -/
structure Obj where
  ty : Nat
  data : Nat
  truthy : Bool
  attrs : List Attr
deriving DecidableEq, Repr

/-- A bean definition: the registration name, the positional parameters
from getfullargspec (name and optional type tag, self already removed for
classes), the keyword-only parameters (name and optional default), the
varkw flag for a catch-all parameter, and the factory callable itself. -/
structure BeanDef where
  name : Name
  args : List (Name × Option Nat)
  kwonly : List (Name × Option Obj)
  varkw : Bool
  factory : List Obj → List (Name × Obj) → Obj

/-- Errors a refresh can raise: the RuntimeError on an ambiguous typed
dependency, a propagated post-construct exception, and the final
RuntimeError naming every definition that could not be instantiated. -/
inductive CtxError where
  | ambiguous (argName : Name) (ty : Nat)
  | hookError (e : Nat)
  | unresolvable (names : List Name)
deriving DecidableEq, Repr

/-- Python dict lookup on an insertion-ordered association list. -/
def lookupName (m : List (Name × Obj)) (n : Name) : Option Obj :=
  (m.find? (fun p => decide (p.1 = n))).map (·.2)

/-- Python dict assignment: update in place when the key exists, append
otherwise. -/
def assignName (m : List (Name × Obj)) (n : Name) (v : Obj) : List (Name × Obj) :=
  match m with
  | [] => [(n, v)]
  | (k, w) :: rest => if k = n then (k, v) :: rest else (k, w) :: assignName rest n v

/-- Read access on the defaultdict(list) of types: the stored list, empty
when the key was never populated. -/
def lookupTypes (m : List (Nat × List Obj)) (t : Nat) : List Obj :=
  ((m.find? (fun p => decide (p.1 = t))).map (·.2)).getD []

/-- Model of bean_types_map[type(obj)].append(obj). -/
def appendType (m : List (Nat × List Obj)) (t : Nat) (v : Obj) : List (Nat × List Obj) :=
  match m with
  | [] => [(t, [v])]
  | (k, l) :: rest => if k = t then (k, l ++ [v]) :: rest else (k, l) :: appendType rest t v

/-- State of an ApplicationContext: the pending definitions, the name map
and the type map. -/
structure Ctx where
  bean_defs : List BeanDef
  bean_names_map : List (Name × Obj)
  bean_types_map : List (Nat × List Obj)

/-- Branch of get_bean taking a string key: bean_names_map[k], where none
stands for the KeyError raised on a missing name. -/
def get_bean_name (ctx : Ctx) (k : Name) : Option Obj :=
  lookupName ctx.bean_names_map k

/-- Branch of get_bean taking a type key: the first recorded instance of
that type, where none stands for the KeyError raised on an empty list. -/
def get_bean_type (ctx : Ctx) (k : Nat) : Option Obj :=
  (lookupTypes ctx.bean_types_map k).head?

/-- Source get_beans: every instance of a type, in insertion order. -/
def get_beans (ctx : Ctx) (t : Nat) : List Obj :=
  lookupTypes ctx.bean_types_map t

/-- Bool comparison of characters by code point, as Python compares them. -/
def charLe (a b : Char) : Bool := decide (a ≤ b)

/-- Lexicographic comparison of names by code point. -/
def nameLe : Name → Name → Bool
  | [], _ => true
  | _ :: _, [] => false
  | a :: as, b :: bs => if a = b then nameLe as bs else charLe a b

/-- Insertion into a sorted list of names. -/
def insertName (x : Name) : List Name → List Name
  | [] => [x]
  | y :: ys => if nameLe x y then x :: y :: ys else y :: insertName x ys

/-- Insertion sort of names, giving the sorted order in which dir reports
attribute names. -/
def sortNames : List Name → List Name
  | [] => []
  | x :: xs => insertName x (sortNames xs)

/-- Python dir(obj): the attribute names, without duplicates, sorted. -/
def dirNames (o : Obj) : List Name :=
  sortNames (o.attrs.map (·.name)).dedup

/-- Python getattr(obj, n): attributes declared later shadow earlier ones. -/
def getattr (o : Obj) (n : Name) : Option Attr :=
  o.attrs.reverse.find? (fun a => decide (a.name = n))

/-- Leading-underscore test name.startswith of an underscore. -/
def startsWithUnderscore (n : Name) : Bool :=
  match n with
  | [] => false
  | c :: _ => decide (c = '_')

/-- Loop body of _call_post_construct over a list of attribute names: skip
names starting with an underscore, invoke each callable attribute carrying
the post-construct marker with no arguments, and stop at the first raise.
The ok result records the order in which hooks were invoked; the error is
the exception the first raising hook threw. -/
def runHooks (o : Obj) : List Name → Except Nat (List Name)
  | [] => .ok []
  | n :: rest =>
    if startsWithUnderscore n then runHooks o rest
    else
      match getattr o n with
      | none => runHooks o rest
      | some a =>
        if a.callable && a.isPostConstruct then
          match a.raises with
          | some e => .error e
          | none => (runHooks o rest).map (fun l => n :: l)
        else runHooks o rest

/-- Source _call_post_construct: enumerate dir(obj) and invoke the marked
hooks in that enumeration order. -/
def call_post_construct (o : Obj) : Except Nat (List Name) :=
  runHooks o (dirNames o)

/-- Positional stage of _resolve_dependencies: every positional parameter
needs a type tag and exactly one bean of that type; ok none models the
return None paths (parameter without a tag, or no bean of the type yet)
and the error is the RuntimeError raised when several beans match. -/
def resolvePositional (ctx : Ctx) :
    List (Name × Option Nat) → Except CtxError (Option (List Obj))
  | [] => .ok (some [])
  | (_, none) :: _ => .ok none
  | (n, some t) :: rest =>
    match lookupTypes ctx.bean_types_map t with
    | [] => .ok none
    | [v] => (resolvePositional ctx rest).map (fun r => r.map (fun vs => v :: vs))
    | _ :: _ :: _ => .error (.ambiguous n t)

/-- Keyword-only stage of _resolve_dependencies: a declared default wins
over any same-named bean, otherwise the bean registered under exactly that
name is bound; none models the return None path. -/
def resolveKwonly (ctx : Ctx) :
    List (Name × Option Obj) → Option (List (Name × Obj))
  | [] => some []
  | (n, some v) :: rest => (resolveKwonly ctx rest).map (fun l => (n, v) :: l)
  | (n, none) :: rest =>
    match lookupName ctx.bean_names_map n with
    | some w => (resolveKwonly ctx rest).map (fun l => (n, w) :: l)
    | none => none

/-- Parameter names of a definition, spec.args plus spec.kwonlyargs: the
set used to keep entries out of the catch-all injection. -/
def usedParamNames (d : BeanDef) : List Name :=
  d.args.map (·.1) ++ d.kwonly.map (·.1)

/-- Entries of bean_names_map whose key is not a parameter name, injected
when the definition declares a catch-all parameter. -/
def varkwExtras (ctx : Ctx) (d : BeanDef) : List (Name × Obj) :=
  ctx.bean_names_map.filter (fun p => ! decide (p.1 ∈ usedParamNames d))

/-- Source _resolve_dependencies: positional stage, keyword-only stage,
then the catch-all stage; ok none is the return None outcome the fixpoint
loop treats as try-again-later. -/
def resolve_dependencies (ctx : Ctx) (d : BeanDef) :
    Except CtxError (Option (List Obj × List (Name × Obj))) :=
  match resolvePositional ctx d.args with
  | .error e => .error e
  | .ok none => .ok none
  | .ok (some args) =>
    match resolveKwonly ctx d.kwonly with
    | none => .ok none
    | some kw =>
      .ok (some (args, if d.varkw then kw ++ varkwExtras ctx d else kw))

/-- Registration step inside _instantiate once the factory returned obj:
the name-map assignment and the type-map append. -/
def record (ctx : Ctx) (n : Name) (obj : Obj) : Ctx :=
  { ctx with
    bean_names_map := assignName ctx.bean_names_map n obj
    bean_types_map := appendType ctx.bean_types_map obj.ty obj }

/-- Source _instantiate: resolve the dependencies, call the factory,
register the instance under the definition name and its runtime type, then
run the post-construct hooks.  The returned context keeps the mutations
made before an error: registration happens before the hooks, so a raising
hook leaves the instance registered. -/
def instantiate (ctx : Ctx) (d : BeanDef) : Ctx × Except CtxError (Option Obj) :=
  match resolve_dependencies ctx d with
  | .error e => (ctx, .error e)
  | .ok none => (ctx, .ok none)
  | .ok (some (args, kwargs)) =>
    let obj := d.factory args kwargs
    let ctx1 := record ctx d.name obj
    match call_post_construct obj with
    | .error e => (ctx1, .error (.hookError e))
    | .ok _ => (ctx1, .ok (some obj))

/-- Scan of _refresh over the pending list, with prev holding the
definitions already tried in this pass.  A definition is popped exactly
when _instantiate returns a truthy object; ok true is the return True
path signalling progress. -/
def refreshPassAux (ctx : Ctx) (prev : List BeanDef) :
    List BeanDef → Ctx × Except CtxError Bool
  | [] => ({ ctx with bean_defs := prev }, .ok false)
  | d :: rest =>
    match instantiate ctx d with
    | (ctx1, .error e) => ({ ctx1 with bean_defs := prev ++ d :: rest }, .error e)
    | (ctx1, .ok none) => refreshPassAux ctx1 (prev ++ [d]) rest
    | (ctx1, .ok (some obj)) =>
      if obj.truthy then ({ ctx1 with bean_defs := prev ++ rest }, .ok true)
      else refreshPassAux ctx1 (prev ++ [d]) rest

/-- Source _refresh: one pass over the pending definitions. -/
def refreshPass (ctx : Ctx) : Ctx × Except CtxError Bool :=
  refreshPassAux ctx [] ctx.bean_defs

/-- Fuel-indexed while loop of refresh.  Each productive pass removes one
pending definition, so any fuel beyond the number of pending definitions
gives the same result; the fuel only phrases the while loop as a total
function. -/
def refreshFuel : Nat → Ctx → Ctx × Option CtxError
  | 0, ctx => (ctx, none)
  | fuel + 1, ctx =>
    match refreshPass ctx with
    | (ctx1, .error e) => (ctx1, some e)
    | (ctx1, .ok true) => refreshFuel fuel ctx1
    | (ctx1, .ok false) =>
      if ctx1.bean_defs.isEmpty then (ctx1, none)
      else (ctx1, some (.unresolvable (ctx1.bean_defs.map (·.name))))

/-- Source refresh: loop _refresh until a pass makes no progress and raise
when definitions remain pending. -/
def refresh (ctx : Ctx) : Ctx × Option CtxError :=
  refreshFuel (ctx.bean_defs.length + 1) ctx

instance {ε α : Type} [DecidableEq ε] [DecidableEq α] : DecidableEq (Except ε α)
  | .error e, .error f =>
    if h : e = f then .isTrue (by rw [h])
    else .isFalse (fun hc => h (Except.error.inj hc))
  | .error _, .ok _ => .isFalse (fun hc => Except.noConfusion hc)
  | .ok _, .error _ => .isFalse (fun hc => Except.noConfusion hc)
  | .ok x, .ok y =>
    if h : x = y then .isTrue (by rw [h])
    else .isFalse (fun hc => h (Except.ok.inj hc))

/-- Marker deciding whether _call_post_construct invokes the attribute
called n: not underscore-led, callable, and carrying the decorator mark. -/
def isHookAt (o : Obj) (n : Name) : Bool :=
  !startsWithUnderscore n &&
    (match getattr o n with
     | some a => a.callable && a.isPostConstruct
     | none => false)

/- Concrete inputs used by the per-claim theorems. -/

/-- Hook-free instance for the C1 run. -/
def c1objH : Obj := ⟨1, 0, true, []⟩

/-- Hook-free definition registered first in the C1 run. -/
def c1healthy : BeanDef := ⟨nm "healthy_service", [], [], false, fun _ _ => c1objH⟩

/-- Instance whose only hook raises exception 7, for the C1 run. -/
def c1objF : Obj := ⟨2, 0, true, [⟨nm "init", true, true, some 7⟩]⟩

/-- Definition whose instance has the raising hook, for the C1 run. -/
def c1failing : BeanDef := ⟨nm "failing_service", [], [], false, fun _ _ => c1objF⟩

/-- Context of the C1 run: the hook-free bean registered before the one
with a raising hook. -/
def c1ctx : Ctx := ⟨[c1healthy, c1failing], [], []⟩

/-- Falsy instance (Python 0, empty containers and friends) for the C3
run. -/
def c3objZero : Obj := ⟨10, 0, false, []⟩

/-- Definition whose factory returns the falsy instance, for the C3 run. -/
def c3falsy : BeanDef := ⟨nm "f0", [], [], false, fun _ _ => c3objZero⟩

/-- Truthy instance for the C3 run. -/
def c3objG : Obj := ⟨11, 0, true, []⟩

/-- Ordinary truthy definition for the C3 run. -/
def c3good : BeanDef := ⟨nm "g", [], [], false, fun _ _ => c3objG⟩

/-- Context of the C3 run: the falsy definition before the truthy one. -/
def c3ctx : Ctx := ⟨[c3falsy, c3good], [], []⟩

/-- First instance registered under the shared name in the C6 run. -/
def c6objA : Obj := ⟨21, 1, true, []⟩

/-- Second, different instance registered under the same name in the C6
run. -/
def c6objB : Obj := ⟨22, 2, true, []⟩

/-- First definition named f for the C6 run. -/
def c6d1 : BeanDef := ⟨nm "f", [], [], false, fun _ _ => c6objA⟩

/-- Second definition, also named f, for the C6 run. -/
def c6d2 : BeanDef := ⟨nm "f", [], [], false, fun _ _ => c6objB⟩

/-- Context of the C6 run: two distinct definitions sharing one name. -/
def c6ctx : Ctx := ⟨[c6d1, c6d2], [], []⟩

/-- Object for the C7 counterexample: two marked hooks declared in the
order zebra, alpha. -/
def c7obj : Obj :=
  ⟨3, 0, true, [⟨nm "zebra", true, true, none⟩, ⟨nm "alpha", true, true, none⟩]⟩

/-- Object with one ordinary marked hook, used by the C10 witness. -/
def c10plain : Obj := ⟨4, 0, true, [⟨nm "setup", true, true, none⟩]⟩

/-- Object whose only attribute is an underscore-named, explicitly marked,
raising hook, used by the C10 witness. -/
def c10hidden : Obj := ⟨5, 0, true, [⟨nm "_setup", true, true, some 3⟩]⟩

/-- First instance of the contested type in the C5 witness. -/
def c5v1 : Obj := ⟨1, 10, true, []⟩

/-- Second instance of the contested type in the C5 witness. -/
def c5v2 : Obj := ⟨1, 20, true, []⟩

/-- Pending definition with a typed positional dependency on the contested
type, for the C5 witness. -/
def c5d : BeanDef := ⟨nm "user", [(nm "t", some 1)], [], false, fun _ _ => ⟨9, 0, true, []⟩⟩

/-- Context of the C5 witness: two recorded instances of type 1, none of
type 5, and the dependent definition pending. -/
def c5ctx : Ctx := ⟨[c5d], [], [(1, [c5v1, c5v2])]⟩

/-- Default value 30 of the timeout parameter in the C8 witness. -/
def c8default : Obj := ⟨50, 30, true, []⟩

/-- Bean separately registered under the name timeout in the C8 witness. -/
def c8beanT : Obj := ⟨51, 99, true, []⟩

/-- Bean registered under the name dep in the C8 witness. -/
def c8depObj : Obj := ⟨53, 7, true, []⟩

/-- Context of the C8 witness: beans named timeout and dep. -/
def c8ctx : Ctx := ⟨[], [(nm "timeout", c8beanT), (nm "dep", c8depObj)], []⟩

/-- Definition with a defaulted keyword-only timeout parameter, for the C8
witness. -/
def c8defA : BeanDef :=
  ⟨nm "ds", [], [(nm "timeout", some c8default)], false, fun _ _ => ⟨52, 0, true, []⟩⟩

/-- Definition with an undefaulted keyword-only dep parameter, for the C8
witness. -/
def c8defB : BeanDef :=
  ⟨nm "db", [], [(nm "dep", none)], false, fun _ _ => ⟨54, 0, true, []⟩⟩

/-- Definition with an undefaulted keyword-only parameter naming no bean,
for the C8 witness. -/
def c8defMissing : BeanDef :=
  ⟨nm "dm", [], [(nm "missing", none)], false, fun _ _ => ⟨55, 0, true, []⟩⟩

/-- Bean of the type the consumer wants, registered under the name other,
for the C9 counterexample. -/
def c9objS : Obj := ⟨31, 5, true, []⟩

/-- Bean registered under the name svc, the consumer's parameter name but
not its parameter type, for the C9 counterexample. -/
def c9objX : Obj := ⟨32, 6, true, []⟩

/-- Catch-all definition with one typed positional parameter called svc,
for the C9 counterexample. -/
def c9d : BeanDef :=
  ⟨nm "consumer", [(nm "svc", some 31)], [], true, fun _ _ => ⟨33, 0, true, []⟩⟩

/-- Context of the C9 counterexample: beans svc and other registered. -/
def c9ctx : Ctx :=
  ⟨[], [(nm "svc", c9objX), (nm "other", c9objS)], [(31, [c9objS]), (32, [c9objX])]⟩

/-- Bean configValue of the spec's catch-all example. -/
def c9objCV : Obj := ⟨41, 1, true, []⟩

/-- Bean databaseUrl of the spec's catch-all example. -/
def c9objDB : Obj := ⟨42, 2, true, []⟩

/-- Catch-all definition with typed positional parameter configValue, from
the spec's example. -/
def c9dB : BeanDef :=
  ⟨nm "maker", [(nm "configValue", some 41)], [], true, fun _ _ => ⟨43, 0, true, []⟩⟩

/-- Context of the spec's catch-all example: beans configValue and
databaseUrl registered. -/
def c9ctxB : Ctx :=
  ⟨[], [(nm "configValue", c9objCV), (nm "databaseUrl", c9objDB)],
   [(41, [c9objCV]), (42, [c9objDB])]⟩

/-- First half of a mutually dependent pair, for the C4 witness. -/
def c4d1 : BeanDef :=
  ⟨nm "d1", [(nm "a1", some 2)], [], false, fun _ _ => ⟨1, 0, true, []⟩⟩

/-- Second half of a mutually dependent pair, for the C4 witness. -/
def c4d2 : BeanDef :=
  ⟨nm "d2", [(nm "a2", some 1)], [], false, fun _ _ => ⟨2, 0, true, []⟩⟩

/-- Context holding the mutually dependent pair, for the C4 witness. -/
def c4ctx : Ctx := ⟨[c4d1, c4d2], [], []⟩

/-- Dependency edge induced by declared positional types: d needs the type
d' produces. -/
def DependsOn (out : BeanDef → Nat) (d d' : BeanDef) : Prop :=
  ∃ a t, (a, some t) ∈ d.args ∧ out d' = t

/-- A well-behaved definition set for the order-independence statement:
distinct names, only type-tagged positional parameters, no two
definitions producing the same type (outInj) while every needed type is
produced by some definition (complete), factories of fixed output type
whose instances are truthy with non-raising hooks, and a rank function
witnessing that the dependency graph has no cycle.  Distinct output
types across the whole set is needed even for types no definition
depends on: two producers of the same type would keep refresh succeeding
but leave that type's list in success order, which varies with the
registration order. -/
structure SimpleSystem (S : List BeanDef) (out : BeanDef → Nat)
    (r : Name → Nat) : Prop where
  namesNodup : (S.map (·.name)).Nodup
  kwonlyNil : ∀ d ∈ S, d.kwonly = []
  varkwFalse : ∀ d ∈ S, d.varkw = false
  factoryTy : ∀ d ∈ S, ∀ as ks, (d.factory as ks).ty = out d
  factoryTruthy : ∀ d ∈ S, ∀ as ks, (d.factory as ks).truthy = true
  factoryHooksOk : ∀ d ∈ S, ∀ as ks, ∃ l, call_post_construct (d.factory as ks) = .ok l
  outInj : ∀ d ∈ S, ∀ d' ∈ S, out d = out d' → d = d'
  complete : ∀ d ∈ S, ∀ p ∈ d.args, ∃ t, p.2 = some t ∧ ∃ d' ∈ S, out d' = t
  ranked : ∀ d ∈ S, ∀ d' ∈ S, DependsOn out d d' → r d'.name < r d.name

/-- Invariant tying a registry state to the set of definitions already
instantiated: each done definition still resolves to the arguments it was
built from, its name maps to its instance, its output type's list is that
single instance, and nothing else occupies the maps. -/
structure Coherent (S : List BeanDef) (out : BeanDef → Nat) (ctx : Ctx)
    (done : List BeanDef) : Prop where
  sub : ∀ d ∈ done, d ∈ S
  resolved : ∀ d ∈ done, ∃ args,
    resolvePositional ctx d.args = .ok (some args) ∧
    lookupName ctx.bean_names_map d.name = some (d.factory args []) ∧
    lookupTypes ctx.bean_types_map (out d) = [d.factory args []]
  namesNone : ∀ n, (∀ d ∈ done, d.name ≠ n) → lookupName ctx.bean_names_map n = none
  typesNone : ∀ t, (∀ d ∈ done, out d ≠ t) → lookupTypes ctx.bean_types_map t = []

/-- Executable acyclicity evidence: a Bool check that the rank function
decreases along every dependency edge of a definition set. -/
def edgeRankOk (S : List BeanDef) (out : BeanDef → Nat) (r : Name → Nat) : Bool :=
  S.all (fun d => d.args.all (fun p => S.all (fun d' =>
    match p.2 with
    | some t => !(decide (out d' = t)) || decide (r d'.name < r d.name)
    | none => true)))

/-- First producer of the contested type in the C2 counterexample. -/
def c2objA : Obj := ⟨1, 100, true, []⟩

/-- Second producer of the contested type in the C2 counterexample. -/
def c2objB : Obj := ⟨1, 200, true, []⟩

/-- Definition a_bean producing the first type-1 instance. -/
def c2dA : BeanDef := ⟨nm "a_bean", [], [], false, fun _ _ => c2objA⟩

/-- Definition b_bean producing the second type-1 instance. -/
def c2dB : BeanDef := ⟨nm "b_bean", [], [], false, fun _ _ => c2objB⟩

/-- Factory of the consumer definition: its instance records the payload of
the bean wired into it. -/
def c2factC : List Obj → List (Name × Obj) → Obj := fun as _ =>
  match as with
  | x :: _ => ⟨2, x.data, true, []⟩
  | [] => ⟨2, 999, true, []⟩

/-- Definition c_bean with a typed positional dependency on type 1. -/
def c2dC : BeanDef := ⟨nm "c_bean", [(nm "t", some 1)], [], false, c2factC⟩

/-- The C2 counterexample definition set. -/
def c2defs : List BeanDef := [c2dA, c2dB, c2dC]

/-- Output-type assignment of the C2 counterexample set. -/
def c2out : BeanDef → Nat := fun d => (d.factory [] []).ty

/-- Rank function witnessing that the C2 counterexample set is acyclic. -/
def c2rank : Name → Nat := fun n => if n = nm "c_bean" then 1 else 0

/-- Independent definition of the C2 witness system. -/
def c2wA : BeanDef := ⟨nm "base", [], [], false, fun _ _ => ⟨1, 7, true, []⟩⟩

/-- Factory of the dependent definition of the C2 witness system. -/
def c2wFactB : List Obj → List (Name × Obj) → Obj := fun as _ =>
  match as with
  | x :: _ => ⟨2, x.data + 1, true, []⟩
  | [] => ⟨2, 0, true, []⟩

/-- Dependent definition of the C2 witness system. -/
def c2wB : BeanDef := ⟨nm "dep_user", [(nm "x", some 1)], [], false, c2wFactB⟩

/-- The C2 witness definition set. -/
def c2wS : List BeanDef := [c2wA, c2wB]

/-- Output-type assignment of the C2 witness system. -/
def c2wOut : BeanDef → Nat := fun d => (d.factory [] []).ty

/-- Rank function of the C2 witness system. -/
def c2wRank : Name → Nat := fun n => if n = nm "dep_user" then 1 else 0

/-- C1: a raising post-construct hook makes refresh fail with that error,
as the claim states, but the owning bean stays resolvable by name
afterwards, because _instantiate fills bean_names_map before calling the
hooks; the earlier hook-free bean is also retrievable.  The repository's
own test asserts a KeyError for the failing name, so the code contradicts
its tests. -/
theorem c1_hook_failure_leaves_failing_bean_registered :
    (refresh c1ctx).2 = some (.hookError 7) ∧
    get_bean_name (refresh c1ctx).1 (nm "failing_service") = some c1objF ∧
    get_bean_name (refresh c1ctx).1 (nm "healthy_service") = some c1objH := by
  decide

/-- C3: a definition whose factory returns a falsy object is registered
without being removed from the pending list, because _refresh tests the
truthiness of the _instantiate result instead of comparing against None;
after the truthy bean makes progress the falsy definition is instantiated
a second time (its type list holds two copies), and refresh still ends in
the could-not-instantiate error naming it. -/
theorem c3_falsy_instance_breaks_pending_invariant :
    (refresh c3ctx).2 = some (.unresolvable [nm "f0"]) ∧
    lookupTypes (refresh c3ctx).1.bean_types_map 10 = [c3objZero, c3objZero] ∧
    get_bean_name (refresh c3ctx).1 (nm "f0") = some c3objZero ∧
    (refresh c3ctx).1.bean_defs.map (·.name) = [nm "f0"] := by
  decide

/-- Unfolding of a name lookup over a cons cell. -/
theorem lookupName_cons (k : Name) (w : Obj) (rest : List (Name × Obj)) (n : Name) :
    lookupName ((k, w) :: rest) n = if k = n then some w else lookupName rest n := by
  simp only [lookupName, List.find?]
  by_cases h : k = n
  · simp [h]
  · simp [h]

/-- Unfolding of a type lookup over a cons cell. -/
theorem lookupTypes_cons (k : Nat) (l : List Obj) (rest : List (Nat × List Obj)) (t : Nat) :
    lookupTypes ((k, l) :: rest) t = if k = t then l else lookupTypes rest t := by
  simp only [lookupTypes, List.find?]
  by_cases h : k = t
  · simp [h]
  · simp [h]

/-- Appending an instance to one type leaves every type list unchanged
apart from appending to that type's list. -/
theorem lookupTypes_appendType (m : List (Nat × List Obj)) (t u : Nat) (v : Obj) :
    lookupTypes (appendType m t v) u =
      if t = u then lookupTypes m u ++ [v] else lookupTypes m u := by
  induction m with
  | nil =>
    by_cases h : t = u
    · simp [appendType, lookupTypes_cons, h, lookupTypes]
    · simp [appendType, lookupTypes_cons, h, lookupTypes]
  | cons p rest ih =>
    obtain ⟨k, l⟩ := p
    rw [appendType]
    by_cases hk : k = t
    · rw [if_pos hk]
      simp only [lookupTypes_cons]
      by_cases hu : k = u
      · have htu : t = u := hk.symm.trans hu
        simp [hu, htu]
      · have htu : t ≠ u := fun h => hu (hk.trans h)
        simp [hu, htu]
    · rw [if_neg hk]
      simp only [lookupTypes_cons]
      by_cases hu : k = u
      · have htu : t ≠ u := fun h => hk (hu.trans h.symm)
        simp [hu, htu]
      · simp only [if_neg hu]
        exact ih

/-- Totality of the character comparison. -/
theorem charLe_total (a b : Char) : charLe a b = true ∨ charLe b a = true := by
  simp only [charLe, decide_eq_true_eq]
  exact le_total a b

/-- Transitivity of the character comparison. -/
theorem charLe_trans {a b c : Char} (h1 : charLe a b = true)
    (h2 : charLe b c = true) : charLe a c = true := by
  simp only [charLe, decide_eq_true_eq] at h1 h2 ⊢
  exact le_trans h1 h2

/-- Totality of the name comparison. -/
theorem nameLe_total : ∀ a b : Name, nameLe a b = true ∨ nameLe b a = true
  | [], _ => Or.inl rfl
  | _ :: _, [] => Or.inr rfl
  | a :: as, b :: bs => by
    by_cases hab : a = b
    · subst hab
      simpa only [nameLe, if_pos rfl] using nameLe_total as bs
    · have hba : b ≠ a := fun h => hab h.symm
      simp only [nameLe, if_neg hab, if_neg hba]
      exact charLe_total a b

/-- Transitivity of the name comparison. -/
theorem nameLe_trans : ∀ {a b c : Name},
    nameLe a b = true → nameLe b c = true → nameLe a c = true
  | [], _, _, _, _ => rfl
  | _ :: _, [], _, h1, _ => by simp [nameLe] at h1
  | _ :: _, _ :: _, [], _, h2 => by simp [nameLe] at h2
  | x :: xs, y :: ys, z :: zs, h1, h2 => by
    by_cases hxy : x = y
    · subst hxy
      by_cases hyz : x = z
      · subst hyz
        simp only [nameLe, if_pos rfl] at h1 h2 ⊢
        exact nameLe_trans h1 h2
      · simp only [nameLe, if_pos rfl] at h1
        simpa only [nameLe, if_neg hyz] using h2
    · by_cases hyz : y = z
      · subst hyz
        simpa only [nameLe, if_neg hxy] using h1
      · simp only [nameLe, if_neg hxy] at h1
        simp only [nameLe, if_neg hyz] at h2
        by_cases hxz : x = z
        · subst hxz
          have h1' : x ≤ y := by simpa only [charLe, decide_eq_true_eq] using h1
          have h2' : y ≤ x := by simpa only [charLe, decide_eq_true_eq] using h2
          exact absurd (le_antisymm h1' h2') hxy
        · simp only [nameLe, if_neg hxz]
          exact charLe_trans h1 h2

/-- Membership of the sorted-insert helper. -/
theorem mem_insertName {n x : Name} :
    ∀ {l : List Name}, n ∈ insertName x l ↔ n = x ∨ n ∈ l
  | [] => by simp [insertName]
  | y :: ys => by
    simp only [insertName]
    split
    · simp [List.mem_cons]
    · simp only [List.mem_cons, mem_insertName (l := ys)]
      tauto

/-- Sorted-insert preserves sortedness. -/
theorem pairwise_insertName {x : Name} :
    ∀ {l : List Name}, l.Pairwise (fun a b => nameLe a b = true) →
      (insertName x l).Pairwise (fun a b => nameLe a b = true) := by
  intro l h
  induction l with
  | nil => simp [insertName]
  | cons y ys ih =>
    rcases List.pairwise_cons.mp h with ⟨hy, hys⟩
    simp only [insertName]
    by_cases hxy : nameLe x y = true
    · rw [if_pos hxy]
      refine List.pairwise_cons.mpr ⟨?_, h⟩
      intro z hz
      rcases List.mem_cons.mp hz with rfl | hz'
      · exact hxy
      · exact nameLe_trans hxy (hy z hz')
    · rw [if_neg hxy]
      refine List.pairwise_cons.mpr ⟨?_, ih hys⟩
      intro z hz
      rcases mem_insertName.mp hz with rfl | hz'
      · rcases nameLe_total z y with h' | h'
        · exact absurd h' hxy
        · exact h'
      · exact hy z hz'

/-- Insertion sort produces a sorted list of names. -/
theorem pairwise_sortNames :
    ∀ l : List Name, (sortNames l).Pairwise (fun a b => nameLe a b = true)
  | [] => List.Pairwise.nil
  | _ :: xs => pairwise_insertName (pairwise_sortNames xs)

/-- Membership of insertion sort. -/
theorem mem_sortNames {n : Name} : ∀ {l : List Name}, n ∈ sortNames l ↔ n ∈ l
  | [] => Iff.rfl
  | x :: xs => by simp [sortNames, mem_insertName, mem_sortNames (l := xs)]

/-- A getattr hit is one of the object's attributes. -/
theorem getattr_mem {o : Obj} {n : Name} {a : Attr} (h : getattr o n = some a) :
    a ∈ o.attrs := by
  have := List.mem_of_find?_eq_some h
  simpa using this

/-- A name the hook loop reports as invoked never starts with an
underscore. -/
theorem runHooks_ok_not_underscore (o : Obj) :
    ∀ (names ns : List Name), runHooks o names = .ok ns →
      ∀ n ∈ ns, startsWithUnderscore n = false := by
  intro names
  induction names with
  | nil =>
    intro ns h n hn
    simp only [runHooks] at h
    cases h
    simp at hn
  | cons m rest ih =>
    intro ns h n hn
    simp only [runHooks] at h
    by_cases hu : startsWithUnderscore m = true
    · rw [if_pos hu] at h
      exact ih ns h n hn
    · rw [if_neg hu] at h
      cases hg : getattr o m with
      | none =>
        simp only [hg] at h
        exact ih ns h n hn
      | some a =>
        simp only [hg] at h
        by_cases hc : (a.callable && a.isPostConstruct) = true
        · rw [if_pos hc] at h
          cases hraise : a.raises with
          | some e => rw [hraise] at h; cases h
          | none =>
            rw [hraise] at h
            cases hrest : runHooks o rest with
            | error e => rw [hrest] at h; cases h
            | ok l =>
              rw [hrest] at h
              cases h
              rcases List.mem_cons.mp hn with rfl | hn'
              · exact Bool.not_eq_true _ ▸ (Bool.of_not_eq_true hu)
              · exact ih l hrest n hn'
        · rw [if_neg hc] at h
          exact ih ns h n hn

/-- When every name in the list starts with an underscore the hook loop
invokes nothing, whatever the attributes would do when called. -/
theorem runHooks_all_underscore (o : Obj) :
    ∀ names : List Name, (∀ n ∈ names, startsWithUnderscore n = true) →
      runHooks o names = .ok [] := by
  intro names
  induction names with
  | nil => intro _; rfl
  | cons m rest ih =>
    intro h
    simp only [runHooks]
    rw [if_pos (h m (List.mem_cons_self m rest))]
    exact ih (fun n hn => h n (List.mem_cons_of_mem m hn))

/-- When no attribute raises, the hook loop invokes exactly the marked,
non-underscore names, in the order of the given list. -/
theorem runHooks_no_raise (o : Obj) (hr : ∀ a ∈ o.attrs, a.raises = none) :
    ∀ names : List Name, runHooks o names = .ok (names.filter (isHookAt o)) := by
  intro names
  induction names with
  | nil => rfl
  | cons m rest ih =>
    simp only [runHooks, List.filter_cons]
    by_cases hu : startsWithUnderscore m = true
    · rw [if_pos hu]
      have hh : isHookAt o m = false := by simp [isHookAt, hu]
      rw [hh]
      simpa using ih
    · rw [if_neg hu]
      cases hg : getattr o m with
      | none =>
        have hh : isHookAt o m = false := by
          simp [isHookAt, hg]
        rw [hh]
        simpa using ih
      | some a =>
        dsimp only
        by_cases hc : (a.callable && a.isPostConstruct) = true
        · rw [if_pos hc]
          rw [hr a (getattr_mem hg)]
          have hh : isHookAt o m = true := by
            simp [isHookAt, hg, hc, Bool.of_not_eq_true hu]
          rw [hh, ih]
          rfl
        · rw [if_neg hc]
          have hcf : (a.callable && a.isPostConstruct) = false := by
            simpa using hc
          have hh : isHookAt o m = false := by
            simp [isHookAt, hg, hcf]
          rw [hh]
          simpa using ih

/-- C6: the claim fails on the code.  Two distinct definitions named f are
both instantiated: after the first pass the name maps to the first
instance, after the full refresh it silently maps to the second, and no
error of any kind is raised. -/
theorem c6_duplicate_name_silently_overwrites :
    (refresh c6ctx).2 = none ∧
    get_bean_name (refreshPass c6ctx).1 (nm "f") = some c6objA ∧
    get_bean_name (refresh c6ctx).1 (nm "f") = some c6objB ∧
    c6objA ≠ c6objB := by
  decide

/-- Dict assignment semantics of the name map: the assigned key now maps
to the new value, every other key is untouched. -/
theorem lookupName_assignName (m : List (Name × Obj)) (n n' : Name) (v : Obj) :
    lookupName (assignName m n v) n = some v ∧
    (n' ≠ n → lookupName (assignName m n v) n' = lookupName m n') := by
  induction m with
  | nil =>
    refine ⟨by simp [assignName, lookupName_cons], fun h => ?_⟩
    rw [assignName, lookupName_cons, if_neg (Ne.symm h)]
  | cons p rest ih =>
    obtain ⟨k, w⟩ := p
    constructor
    · rw [assignName]
      by_cases hk : k = n
      · rw [if_pos hk, lookupName_cons, if_pos hk]
      · rw [if_neg hk, lookupName_cons, if_neg hk]
        exact ih.1
    · intro h
      rw [assignName]
      by_cases hk : k = n
      · rw [if_pos hk]
        have hk' : k ≠ n' := fun hh => h (hh.symm.trans hk)
        rw [lookupName_cons, if_neg hk', lookupName_cons, if_neg hk']
      · rw [if_neg hk, lookupName_cons, lookupName_cons]
        by_cases hk' : k = n'
        · rw [if_pos hk', if_pos hk']
        · rw [if_neg hk', if_neg hk']
          exact ih.2 h

/-- C6 amended: registering an instance under a name is a plain dict
assignment: it silently overwrites whatever instance the name already
mapped to, never raises, and leaves every other name unchanged. -/
theorem c6_amended_record_overwrites (m : List (Name × Obj)) (n n' : Name) (v : Obj) :
    lookupName (assignName m n v) n = some v ∧
    (n' ≠ n → lookupName (assignName m n v) n' = lookupName m n') :=
  lookupName_assignName m n n' v

/-- C6 amended witness at a concrete map. -/
theorem c6_amended_record_overwrites_witness :
    lookupName (assignName [(nm "f", c6objA)] (nm "f") c6objB) (nm "f") = some c6objB ∧
    lookupName (assignName [(nm "f", c6objA)] (nm "f") c6objB) (nm "g") =
      lookupName [(nm "f", c6objA)] (nm "g") :=
  ⟨(c6_amended_record_overwrites [(nm "f", c6objA)] (nm "f") (nm "g") c6objB).1,
   (c6_amended_record_overwrites [(nm "f", c6objA)] (nm "f") (nm "g") c6objB).2
     (by decide)⟩

/-- C7: the claim fails on the code.  The object declares its marked hooks
in the order zebra, alpha, yet _call_post_construct walks dir(obj), which
sorts names, so alpha is invoked first. -/
theorem c7_declaration_order_not_respected :
    c7obj.attrs.map (·.name) = [nm "zebra", nm "alpha"] ∧
    call_post_construct c7obj = .ok [nm "alpha", nm "zebra"] ∧
    [nm "alpha", nm "zebra"] ≠ [nm "zebra", nm "alpha"] := by
  decide

/-- C7 amended: hooks are invoked with no arguments in the alphabetical
order of their method names, the order dir(obj) enumerates them, not in
declaration order: when no hook raises, the invoked sequence is the
marked, non-underscore part of the sorted attribute-name list, and that
sequence is sorted under the name comparison. -/
theorem c7_amended_hooks_run_in_dir_order (o : Obj)
    (hr : ∀ a ∈ o.attrs, a.raises = none) :
    call_post_construct o = .ok ((dirNames o).filter (isHookAt o)) ∧
    ((dirNames o).filter (isHookAt o)).Pairwise (fun a b => nameLe a b = true) :=
  ⟨runHooks_no_raise o hr (dirNames o),
   List.Pairwise.filter _ (pairwise_sortNames _)⟩

/-- C7 amended witness at the concrete two-hook object. -/
theorem c7_amended_hooks_run_in_dir_order_witness :
    call_post_construct c7obj = .ok ((dirNames c7obj).filter (isHookAt c7obj)) ∧
    ((dirNames c7obj).filter (isHookAt c7obj)).Pairwise (fun a b => nameLe a b = true) :=
  c7_amended_hooks_run_in_dir_order c7obj (by decide)

/-- C10: hook enumeration skips every attribute whose name starts with an
underscore: an invoked-hook list never holds such a name, and an object
all of whose attributes are underscore-named runs no hook at all, even
when those attributes are explicitly marked and would raise. -/
theorem c10_underscore_hooks_never_invoked :
    (∀ (o : Obj) (ns : List Name), call_post_construct o = .ok ns →
       ∀ n ∈ ns, startsWithUnderscore n = false) ∧
    (∀ o : Obj, (∀ a ∈ o.attrs, startsWithUnderscore a.name = true) →
       call_post_construct o = .ok []) := by
  constructor
  · intro o ns h n hn
    exact runHooks_ok_not_underscore o (dirNames o) ns h n hn
  · intro o h
    apply runHooks_all_underscore
    intro n hn
    have hn' : n ∈ (o.attrs.map (·.name)).dedup := mem_sortNames.mp hn
    have hn'' : n ∈ o.attrs.map (·.name) := List.mem_dedup.mp hn'
    rcases List.mem_map.mp hn'' with ⟨a, ha, rfl⟩
    exact h a ha

/-- C10 witness: the marked, raising, underscore-named hook is skipped and
the ordinary hook list of a plain object carries no underscore name. -/
theorem c10_underscore_hooks_never_invoked_witness :
    startsWithUnderscore (nm "setup") = false ∧
    call_post_construct c10hidden = .ok [] :=
  ⟨c10_underscore_hooks_never_invoked.1 c10plain [nm "setup"] (by decide)
      (nm "setup") (by decide),
   c10_underscore_hooks_never_invoked.2 c10hidden (by decide)⟩

/-- An error raised while resolving the first pending definition aborts
refresh with exactly that error. -/
theorem refresh_error_of_first (ctx : Ctx) (d : BeanDef) (pending : List BeanDef)
    (e : CtxError) (hd : ctx.bean_defs = d :: pending)
    (hres : resolve_dependencies ctx d = .error e) :
    (refresh ctx).2 = some e := by
  have hpass : refreshPass ctx = ({ ctx with bean_defs := d :: pending }, .error e) := by
    rw [refreshPass, hd]
    simp only [refreshPassAux, instantiate, hres, List.nil_append]
  rw [refresh, hd]
  simp only [List.length_cons, refreshFuel, hpass]

/-- C5: with two recorded instances of a type, a typed positional
dependency on that type raises the multiple-beans error, which aborts the
whole refresh; while the direct type lookup still answers with the first
recorded instance, fails only when the type list is empty, and recording
always appends at the back, so the head really is the first-recorded
instance. -/
theorem c5_ambiguity_vs_direct_lookup (ctx : Ctx) (d : BeanDef) (a : Name)
    (t t0 : Nat) (rest : List (Name × Option Nat)) (v1 v2 : Obj) (vs : List Obj)
    (pending : List BeanDef)
    (hargs : d.args = (a, some t) :: rest)
    (hty : lookupTypes ctx.bean_types_map t = v1 :: v2 :: vs)
    (hd : ctx.bean_defs = d :: pending)
    (ht0 : lookupTypes ctx.bean_types_map t0 = []) :
    resolve_dependencies ctx d = .error (.ambiguous a t) ∧
    (refresh ctx).2 = some (.ambiguous a t) ∧
    get_bean_type ctx t = some v1 ∧
    get_bean_type ctx t0 = none ∧
    (∀ (m : List (Nat × List Obj)) (ty : Nat) (v : Obj),
       lookupTypes (appendType m ty v) ty = lookupTypes m ty ++ [v]) := by
  have hres : resolve_dependencies ctx d = .error (.ambiguous a t) := by
    simp only [resolve_dependencies, hargs, resolvePositional, hty]
  refine ⟨hres, refresh_error_of_first ctx d pending _ hd hres, ?_, ?_, ?_⟩
  · rw [get_bean_type, hty]; rfl
  · rw [get_bean_type, ht0]; rfl
  · intro m ty v
    rw [lookupTypes_appendType]
    simp

/-- C5 witness at the concrete two-instance registry. -/
theorem c5_ambiguity_vs_direct_lookup_witness :
    resolve_dependencies c5ctx c5d = .error (.ambiguous (nm "t") 1) ∧
    (refresh c5ctx).2 = some (.ambiguous (nm "t") 1) ∧
    get_bean_type c5ctx 1 = some c5v1 ∧
    get_bean_type c5ctx 5 = none ∧
    lookupTypes (appendType [(1, [c5v1])] 1 c5v2) 1 = [c5v1] ++ [c5v2] := by
  have h := c5_ambiguity_vs_direct_lookup c5ctx c5d (nm "t") 1 5 [] c5v1 c5v2 [] []
    (by decide) (by decide) rfl (by decide)
  exact ⟨h.1, h.2.1, h.2.2.1, h.2.2.2.1, by
    rw [h.2.2.2.2 [(1, [c5v1])] 1 c5v2]
    decide⟩

/-- A keyword-only parameter carrying a default is always bound to the
default by the keyword stage. -/
theorem resolveKwonly_default_mem (ctx : Ctx) :
    ∀ (pre post : List (Name × Option Obj)) (n : Name) (v : Obj)
      (l : List (Name × Obj)),
      resolveKwonly ctx (pre ++ (n, some v) :: post) = some l → (n, v) ∈ l := by
  intro pre
  induction pre with
  | nil =>
    intro post n v l h
    simp only [List.nil_append, resolveKwonly] at h
    cases hr : resolveKwonly ctx post with
    | none => rw [hr] at h; cases h
    | some l' =>
      rw [hr] at h
      simp only [Option.map_some'] at h
      cases h
      exact List.mem_cons_self _ _
  | cons q pre' ih =>
    intro post n v l h
    obtain ⟨m, dflt⟩ := q
    cases dflt with
    | some w =>
      simp only [List.cons_append, resolveKwonly, List.append_eq] at h
      cases hr : resolveKwonly ctx (pre' ++ (n, some v) :: post) with
      | none => rw [hr] at h; cases h
      | some l' =>
        rw [hr] at h
        simp only [Option.map_some'] at h
        cases h
        exact List.mem_cons_of_mem _ (ih post n v l' hr)
    | none =>
      simp only [List.cons_append, resolveKwonly, List.append_eq] at h
      cases hl : lookupName ctx.bean_names_map m with
      | none => simp only [hl] at h; cases h
      | some w =>
        simp only [hl] at h
        cases hr : resolveKwonly ctx (pre' ++ (n, some v) :: post) with
        | none => rw [hr] at h; cases h
        | some l' =>
          rw [hr] at h
          simp only [Option.map_some'] at h
          cases h
          exact List.mem_cons_of_mem _ (ih post n v l' hr)

/-- A keyword-only parameter without a default is bound to the bean of
exactly its name whenever that bean exists. -/
theorem resolveKwonly_byname_mem (ctx : Ctx) :
    ∀ (kw : List (Name × Option Obj)) (n : Name) (w : Obj)
      (l : List (Name × Obj)),
      (n, none) ∈ kw → lookupName ctx.bean_names_map n = some w →
      resolveKwonly ctx kw = some l → (n, w) ∈ l := by
  intro kw
  induction kw with
  | nil => intro n w l hmem; cases hmem
  | cons q rest ih =>
    intro n w l hmem hlook h
    obtain ⟨m, dflt⟩ := q
    rcases List.mem_cons.mp hmem with heq | hmem'
    · cases heq
      simp only [resolveKwonly, hlook] at h
      cases hr : resolveKwonly ctx rest with
      | none => rw [hr] at h; cases h
      | some l' =>
        rw [hr] at h
        simp only [Option.map_some'] at h
        cases h
        exact List.mem_cons_self _ _
    · cases dflt with
      | some u =>
        simp only [resolveKwonly] at h
        cases hr : resolveKwonly ctx rest with
        | none => rw [hr] at h; cases h
        | some l' =>
          rw [hr] at h
          simp only [Option.map_some'] at h
          cases h
          exact List.mem_cons_of_mem _ (ih n w l' hmem' hlook hr)
      | none =>
        simp only [resolveKwonly] at h
        cases hl : lookupName ctx.bean_names_map m with
        | none => simp only [hl] at h; cases h
        | some u =>
          simp only [hl] at h
          cases hr : resolveKwonly ctx rest with
          | none => rw [hr] at h; cases h
          | some l' =>
            rw [hr] at h
            simp only [Option.map_some'] at h
            cases h
            exact List.mem_cons_of_mem _ (ih n w l' hmem' hlook hr)

/-- A keyword-only parameter without a default and without a same-named
bean makes the whole keyword stage defer. -/
theorem resolveKwonly_missing_none (ctx : Ctx) :
    ∀ (kw : List (Name × Option Obj)) (n : Name),
      (n, none) ∈ kw → lookupName ctx.bean_names_map n = none →
      resolveKwonly ctx kw = none := by
  intro kw
  induction kw with
  | nil => intro n hmem; cases hmem
  | cons q rest ih =>
    intro n hmem hlook
    obtain ⟨m, dflt⟩ := q
    rcases List.mem_cons.mp hmem with heq | hmem'
    · cases heq
      simp only [resolveKwonly, hlook]
    · cases dflt with
      | some u => simp only [resolveKwonly, ih n hmem' hlook, Option.map_none']
      | none =>
        cases hl : lookupName ctx.bean_names_map m with
        | none => simp only [resolveKwonly, hl]
        | some u => simp only [resolveKwonly, hl, ih n hmem' hlook, Option.map_none']

/-- Inversion of a successful dependency resolution into its three
stages. -/
theorem resolve_dependencies_ok_inv {ctx : Ctx} {d : BeanDef}
    {args : List Obj} {kwargs : List (Name × Obj)}
    (h : resolve_dependencies ctx d = .ok (some (args, kwargs))) :
    resolvePositional ctx d.args = .ok (some args) ∧
    ∃ kw, resolveKwonly ctx d.kwonly = some kw ∧
      kwargs = if d.varkw then kw ++ varkwExtras ctx d else kw := by
  simp only [resolve_dependencies] at h
  cases hp : resolvePositional ctx d.args with
  | error e => simp only [hp] at h; cases h
  | ok o =>
    simp only [hp] at h
    cases o with
    | none => cases h
    | some args' =>
      cases hk : resolveKwonly ctx d.kwonly with
      | none => simp only [hk] at h; cases h
      | some kw =>
        simp only [hk] at h
        cases h
        exact ⟨rfl, kw, rfl, rfl⟩

/-- C8: a defaulted named parameter is bound to its default even when a
bean of the same name is registered; an undefaulted named parameter is
bound to the same-named bean when one exists; and when the bean is absent
the whole resolution defers. -/
theorem c8_named_parameter_resolution (ctx : Ctx) (d : BeanDef) :
    (∀ (pre post : List (Name × Option Obj)) (n : Name) (v : Obj)
       (args : List Obj) (kwargs : List (Name × Obj)),
       d.kwonly = pre ++ (n, some v) :: post →
       resolve_dependencies ctx d = .ok (some (args, kwargs)) →
       (n, v) ∈ kwargs) ∧
    (∀ (n : Name) (w : Obj) (args : List Obj) (kwargs : List (Name × Obj)),
       (n, none) ∈ d.kwonly → lookupName ctx.bean_names_map n = some w →
       resolve_dependencies ctx d = .ok (some (args, kwargs)) →
       (n, w) ∈ kwargs) ∧
    (∀ (n : Name) (as0 : List Obj),
       (n, none) ∈ d.kwonly → lookupName ctx.bean_names_map n = none →
       resolvePositional ctx d.args = .ok (some as0) →
       resolve_dependencies ctx d = .ok none) := by
  refine ⟨?_, ?_, ?_⟩
  · intro pre post n v args kwargs hkw h
    obtain ⟨-, kw, hres, hkwargs⟩ := resolve_dependencies_ok_inv h
    have hm : (n, v) ∈ kw :=
      resolveKwonly_default_mem ctx pre post n v kw (by rw [← hkw]; exact hres)
    subst hkwargs
    cases d.varkw
    · simpa using hm
    · simpa using List.mem_append_left _ hm
  · intro n w args kwargs hmem hlook h
    obtain ⟨-, kw, hres, hkwargs⟩ := resolve_dependencies_ok_inv h
    have hm : (n, w) ∈ kw := resolveKwonly_byname_mem ctx d.kwonly n w kw hmem hlook hres
    subst hkwargs
    cases d.varkw
    · simpa using hm
    · simpa using List.mem_append_left _ hm
  · intro n as0 hmem hlook hp
    simp only [resolve_dependencies, hp]
    rw [resolveKwonly_missing_none ctx d.kwonly n hmem hlook]

/-- C8 witness: timeout keeps its default 30 despite the bean named
timeout, dep is bound to the bean named dep, and the missing name defers
the resolution. -/
theorem c8_named_parameter_resolution_witness :
    (nm "timeout", c8default) ∈ ([(nm "timeout", c8default)] : List (Name × Obj)) ∧
    (nm "dep", c8depObj) ∈ ([(nm "dep", c8depObj)] : List (Name × Obj)) ∧
    resolve_dependencies c8ctx c8defMissing = .ok none :=
  ⟨(c8_named_parameter_resolution c8ctx c8defA).1 [] [] (nm "timeout") c8default
      [] [(nm "timeout", c8default)] (by decide) (by decide),
   (c8_named_parameter_resolution c8ctx c8defB).2.1 (nm "dep") c8depObj
      [] [(nm "dep", c8depObj)] (by decide) (by decide) (by decide),
   (c8_named_parameter_resolution c8ctx c8defMissing).2.2 (nm "missing") []
      (by decide) (by decide) (by decide)⟩

/-- C9: the claim fails on the code.  The registry holds a bean named svc
that is not consumed by any binding of the catch-all definition, since the
positional slot is filled by the bean named other, matched by type; yet
svc is missing from the catch-all set, while other, though consumed
positionally, appears in it.  Exclusion is by parameter name, not by
consumption. -/
theorem c9_catchall_excludes_by_parameter_name :
    resolve_dependencies c9ctx c9d = .ok (some ([c9objS], [(nm "other", c9objS)])) ∧
    lookupName c9ctx.bean_names_map (nm "svc") = some c9objX ∧
    c9objX ≠ c9objS ∧
    (nm "svc", c9objX) ∉ ([(nm "other", c9objS)] : List (Name × Obj)) := by
  decide

/-- C9 amended: the catch-all set holds exactly the name-map entries whose
key differs from every positional and keyword parameter name of the
definition, appended after the keyword bindings; in particular every
registry entry whose name is not a parameter name reaches the factory, and
the spec's configValue example behaves as stated: databaseUrl arrives in
the catch-all set and not positionally. -/
theorem c9_amended_catchall_by_name (ctx : Ctx) (d : BeanDef) :
    (∀ (args : List Obj) (kwargs : List (Name × Obj)),
       d.varkw = true →
       resolve_dependencies ctx d = .ok (some (args, kwargs)) →
       ∃ kw, resolveKwonly ctx d.kwonly = some kw ∧
         kwargs = kw ++ varkwExtras ctx d ∧
         ∀ p ∈ ctx.bean_names_map, p.1 ∉ usedParamNames d → p ∈ kwargs) ∧
    resolve_dependencies c9ctxB c9dB =
      .ok (some ([c9objCV], [(nm "databaseUrl", c9objDB)])) := by
  constructor
  · intro args kwargs hv h
    obtain ⟨-, kw, hres, hkwargs⟩ := resolve_dependencies_ok_inv h
    rw [hv] at hkwargs
    simp only [if_pos rfl] at hkwargs
    refine ⟨kw, hres, hkwargs, ?_⟩
    intro p hp hnot
    subst hkwargs
    apply List.mem_append_right
    apply List.mem_filter.mpr
    exact ⟨hp, by simp [hnot]⟩
  · decide

/-- A pass that reports progress has removed exactly one definition. -/
theorem refreshPassAux_progress_length :
    ∀ (l : List BeanDef) (ctx : Ctx) (prev : List BeanDef) (c1 : Ctx),
      refreshPassAux ctx prev l = (c1, .ok true) →
      c1.bean_defs.length + 1 = prev.length + l.length := by
  intro l
  induction l with
  | nil =>
    intro ctx prev c1 h
    simp only [refreshPassAux] at h
    cases h
  | cons d rest ih =>
    intro ctx prev c1 h
    simp only [refreshPassAux] at h
    rcases hi : instantiate ctx d with ⟨ctx1, r⟩
    rw [hi] at h
    match r with
    | .error e => cases h
    | .ok none =>
      have := ih ctx1 (prev ++ [d]) c1 h
      simp only [List.length_append, List.length_cons, List.length_nil] at this ⊢
      omega
    | .ok (some obj) =>
      dsimp only at h
      by_cases ht : obj.truthy = true
      · rw [if_pos ht] at h
        cases h
        simp only [List.length_append, List.length_cons]
        omega
      · rw [if_neg ht] at h
        have := ih ctx1 (prev ++ [d]) c1 h
        simp only [List.length_append, List.length_cons, List.length_nil] at this ⊢
        omega

/-- Pass-level form of the progress length lemma. -/
theorem refreshPass_progress_length {ctx c1 : Ctx}
    (h : refreshPass ctx = (c1, .ok true)) :
    c1.bean_defs.length + 1 = ctx.bean_defs.length := by
  have := refreshPassAux_progress_length ctx.bean_defs ctx [] c1 h
  simpa using this

/-- The refresh loop no longer depends on the fuel once the fuel exceeds
the number of pending definitions. -/
theorem refreshFuel_congr :
    ∀ (n : Nat) (ctx : Ctx) (f g : Nat), ctx.bean_defs.length = n →
      n < f → n < g → refreshFuel f ctx = refreshFuel g ctx := by
  intro n
  induction n using Nat.strong_induction_on with
  | _ n ih =>
    intro ctx f g hlen hf hg
    obtain ⟨f', rfl⟩ : ∃ k, f = k + 1 := ⟨f - 1, by omega⟩
    obtain ⟨g', rfl⟩ : ∃ k, g = k + 1 := ⟨g - 1, by omega⟩
    simp only [refreshFuel]
    rcases hpass : refreshPass ctx with ⟨ctx1, r⟩
    match r with
    | .error e => rfl
    | .ok false => rfl
    | .ok true =>
      have hlt := refreshPass_progress_length hpass
      exact ih ctx1.bean_defs.length (by omega) ctx1 f' g' rfl (by omega) (by omega)

/-- C9 amended witness at the spec's configValue example: the catch-all
set is exactly the non-parameter-named part of the registry, and
databaseUrl arrives inside it. -/
theorem c9_amended_catchall_by_name_witness :
    [(nm "databaseUrl", c9objDB)] = [] ++ varkwExtras c9ctxB c9dB ∧
    (nm "databaseUrl", c9objDB) ∈ ([(nm "databaseUrl", c9objDB)] : List (Name × Obj)) := by
  obtain ⟨kw, hkw, heq, hmem⟩ := (c9_amended_catchall_by_name c9ctxB c9dB).1 [c9objCV]
    [(nm "databaseUrl", c9objDB)] (by decide) (by decide)
  have hkw' : kw = [] := by
    have : resolveKwonly c9ctxB c9dB.kwonly = some [] := by decide
    rw [this] at hkw
    exact (Option.some.inj hkw).symm
  subst hkw'
  exact ⟨heq, hmem (nm "databaseUrl", c9objDB) (by decide) (by decide)⟩

/-- C4: refresh terminates on every input, since beyond the number of
pending definitions the fuelled loop is constant; a full pass with zero
progress while definitions remain pending ends refresh with the single
error naming every remaining definition; and two definitions, each
positionally dependent on the type the other produces, always end in that
error naming both, starting from an empty registry. -/
theorem c4_refresh_terminates_and_reports_all_pending :
    (∀ (ctx : Ctx) (f : Nat), ctx.bean_defs.length < f →
       refreshFuel f ctx = refresh ctx) ∧
    (∀ (ctx ctx1 : Ctx), refreshPass ctx = (ctx1, .ok false) →
       ctx1.bean_defs ≠ [] →
       (refresh ctx).2 = some (.unresolvable (ctx1.bean_defs.map (·.name)))) ∧
    (∀ (d1 d2 : BeanDef) (a1 a2 : Name) (t1 t2 : Nat)
       (r1 r2 : List (Name × Option Nat)),
       d1.args = (a1, some t2) :: r1 → d2.args = (a2, some t1) :: r2 →
       (∀ as ks, (d1.factory as ks).ty = t1) →
       (∀ as ks, (d2.factory as ks).ty = t2) →
       refresh ⟨[d1, d2], [], []⟩ =
         (⟨[d1, d2], [], []⟩, some (.unresolvable [d1.name, d2.name]))) := by
  refine ⟨?_, ?_, ?_⟩
  · intro ctx f h
    exact refreshFuel_congr ctx.bean_defs.length ctx f (ctx.bean_defs.length + 1)
      rfl h (Nat.lt_succ_self _)
  · intro ctx ctx1 hpass hne
    rw [refresh]
    simp only [refreshFuel, hpass]
    cases hb : ctx1.bean_defs with
    | nil => exact absurd hb hne
    | cons x xs => simp [hb]
  · intro d1 d2 a1 a2 t1 t2 r1 r2 h1 h2 hf1 hf2
    have hres1 : resolve_dependencies ⟨[d1, d2], [], []⟩ d1 = .ok none := by
      simp [resolve_dependencies, resolvePositional, lookupTypes, h1]
    have hres2 : resolve_dependencies ⟨[d1, d2], [], []⟩ d2 = .ok none := by
      simp [resolve_dependencies, resolvePositional, lookupTypes, h2]
    have hpass : refreshPass ⟨[d1, d2], [], []⟩ = (⟨[d1, d2], [], []⟩, .ok false) := by
      rw [refreshPass]
      simp only [refreshPassAux, instantiate, hres1, hres2, List.nil_append,
        List.cons_append, List.append_nil]
    rw [refresh]
    simp only [List.length_cons, List.length_nil, refreshFuel, hpass]
    rfl

/-- Every nonempty list has an element of minimal measure. -/
theorem exists_min_rank {α : Type} (f : α → Nat) :
    ∀ l : List α, l ≠ [] → ∃ a ∈ l, ∀ b ∈ l, f a ≤ f b := by
  intro l
  induction l with
  | nil => intro h; exact absurd rfl h
  | cons a t ih =>
    intro _
    by_cases ht : t = []
    · subst ht
      refine ⟨a, List.mem_cons_self a [], ?_⟩
      intro b hb
      rcases List.mem_cons.mp hb with rfl | hb
      · exact le_rfl
      · cases hb
    · obtain ⟨m, hm, hmin⟩ := ih ht
      by_cases hf : f a ≤ f m
      · refine ⟨a, List.mem_cons_self a t, ?_⟩
        intro b hb
        rcases List.mem_cons.mp hb with rfl | hb
        · exact le_rfl
        · exact le_trans hf (hmin b hb)
      · refine ⟨m, List.mem_cons_of_mem a hm, ?_⟩
        intro b hb
        rcases List.mem_cons.mp hb with rfl | hb
        · exact le_of_not_le hf
        · exact hmin b hb

/-- The positional stage reads only the type lists of its parameters. -/
theorem resolvePositional_congr (ctx1 ctx2 : Ctx) :
    ∀ l : List (Name × Option Nat),
      (∀ a t, (a, some t) ∈ l →
        lookupTypes ctx1.bean_types_map t = lookupTypes ctx2.bean_types_map t) →
      resolvePositional ctx1 l = resolvePositional ctx2 l := by
  intro l
  induction l with
  | nil => intro _; rfl
  | cons p rest ih =>
    intro h
    obtain ⟨a, ot⟩ := p
    cases ot with
    | none => rfl
    | some t =>
      simp only [resolvePositional]
      rw [h a t (List.mem_cons_self _ _),
        ih (fun a' t' ht' => h a' t' (List.mem_cons_of_mem _ ht'))]

/-- The positional stage is unchanged between contexts sharing a type
map. -/
theorem resolvePositional_eq_of_types {ctx1 ctx2 : Ctx}
    (h : ctx1.bean_types_map = ctx2.bean_types_map)
    (l : List (Name × Option Nat)) :
    resolvePositional ctx1 l = resolvePositional ctx2 l :=
  resolvePositional_congr ctx1 ctx2 l (fun _ _ _ => by rw [h])

/-- A successful positional stage certifies that every parameter is
type-tagged with a nonempty type list. -/
theorem resolvePositional_ok_some_types (ctx : Ctx) :
    ∀ (l : List (Name × Option Nat)) (args : List Obj),
      resolvePositional ctx l = .ok (some args) →
      ∀ p ∈ l, ∃ t, p.2 = some t ∧ lookupTypes ctx.bean_types_map t ≠ [] := by
  intro l
  induction l with
  | nil => intro args _ p hp; cases hp
  | cons q rest ih =>
    intro args h p hp
    obtain ⟨a, ot⟩ := q
    cases ot with
    | none => simp only [resolvePositional] at h; cases h
    | some t =>
      simp only [resolvePositional] at h
      cases hl : lookupTypes ctx.bean_types_map t with
      | nil => rw [hl] at h; cases h
      | cons v vs =>
        cases vs with
        | nil =>
          rw [hl] at h
          rcases List.mem_cons.mp hp with rfl | hp'
          · exact ⟨t, rfl, by rw [hl]; simp⟩
          · cases hr : resolvePositional ctx rest with
            | error e => rw [hr] at h; cases h
            | ok o =>
              cases o with
              | none => rw [hr] at h; cases h
              | some args' => exact ih args' hr p hp'
        | cons w ws => rw [hl] at h; cases h

/-- For a definition with no keyword parameters and no catch-all, the
whole resolution is the positional stage with an empty keyword map. -/
theorem resolve_dependencies_simple (ctx : Ctx) (d : BeanDef)
    (hk : d.kwonly = []) (hv : d.varkw = false) :
    resolve_dependencies ctx d =
      (resolvePositional ctx d.args).map (fun o => o.map (fun args => (args, []))) := by
  simp only [resolve_dependencies, hk, resolveKwonly, hv]
  cases resolvePositional ctx d.args with
  | error e => rfl
  | ok o =>
    cases o with
    | none => rfl
    | some args => rfl

/-- In a coherent state every type list is empty or the singleton instance
of a done producer. -/
theorem coherent_types_cases {S : List BeanDef} {out : BeanDef → Nat} {ctx : Ctx}
    {done : List BeanDef} (hco : Coherent S out ctx done) (t : Nat) :
    (lookupTypes ctx.bean_types_map t = [] ∧ ∀ d ∈ done, out d ≠ t) ∨
    ∃ d ∈ done, out d = t ∧ ∃ args,
      resolvePositional ctx d.args = .ok (some args) ∧
      lookupName ctx.bean_names_map d.name = some (d.factory args []) ∧
      lookupTypes ctx.bean_types_map t = [d.factory args []] := by
  by_cases h : ∃ d ∈ done, out d = t
  · right
    obtain ⟨d, hd, ht⟩ := h
    obtain ⟨args, h1, h2, h3⟩ := hco.resolved d hd
    exact ⟨d, hd, ht, args, h1, h2, ht ▸ h3⟩
  · left
    push_neg at h
    exact ⟨hco.typesNone t h, h⟩

/-- In a coherent state the positional stage never raises the ambiguity
error, since every type list has at most one element. -/
theorem resolvePositional_coherent_total {S : List BeanDef} {out : BeanDef → Nat}
    {ctx : Ctx} {done : List BeanDef} (hco : Coherent S out ctx done) :
    ∀ l : List (Name × Option Nat),
      resolvePositional ctx l = .ok none ∨
      ∃ args, resolvePositional ctx l = .ok (some args) := by
  intro l
  induction l with
  | nil => exact Or.inr ⟨[], rfl⟩
  | cons q rest ih =>
    obtain ⟨a, ot⟩ := q
    cases ot with
    | none => exact Or.inl rfl
    | some t =>
      rcases coherent_types_cases hco t with ⟨hnil, -⟩ | ⟨d, -, -, args, -, -, hl⟩
      · exact Or.inl (by simp only [resolvePositional, hnil])
      · rcases ih with hnone | ⟨args', hargs'⟩
        · exact Or.inl (by simp only [resolvePositional, hl, hnone]; rfl)
        · exact Or.inr ⟨d.factory args [] :: args',
            by simp only [resolvePositional, hl, hargs']; rfl⟩

/-- When all dependency producers of a parameter list are done the
positional stage succeeds. -/
theorem resolvePositional_all_done {S : List BeanDef} {out : BeanDef → Nat}
    {ctx : Ctx} {done : List BeanDef} (hco : Coherent S out ctx done) :
    ∀ l : List (Name × Option Nat),
      (∀ p ∈ l, ∃ t, p.2 = some t ∧ ∃ d' ∈ done, out d' = t) →
      ∃ args, resolvePositional ctx l = .ok (some args) := by
  intro l
  induction l with
  | nil => exact fun _ => ⟨[], rfl⟩
  | cons q rest ih =>
    intro h
    obtain ⟨a, ot⟩ := q
    obtain ⟨t, hot, d', hd', hout⟩ := h (a, ot) (List.mem_cons_self _ _)
    have hot' : ot = some t := hot
    subst hot'
    obtain ⟨args0, h1, h2, h3⟩ := hco.resolved d' hd'
    have hl : lookupTypes ctx.bean_types_map t = [d'.factory args0 []] := hout ▸ h3
    obtain ⟨args, hargs⟩ := ih (fun p hp => h p (List.mem_cons_of_mem _ hp))
    exact ⟨d'.factory args0 [] :: args,
      by simp only [resolvePositional, hl, hargs]; rfl⟩

/-- A deferring definition leaves the context untouched. -/
theorem instantiate_defer {ctx : Ctx} {d : BeanDef}
    (hk : d.kwonly = []) (hv : d.varkw = false)
    (h : resolvePositional ctx d.args = .ok none) :
    instantiate ctx d = (ctx, .ok none) := by
  simp only [instantiate, resolve_dependencies_simple ctx d hk hv, h, Except.map,
    Option.map_none']

/-- A resolving definition with well-behaved hooks registers its instance
and reports it. -/
theorem instantiate_success {ctx : Ctx} {d : BeanDef} {args : List Obj}
    (hk : d.kwonly = []) (hv : d.varkw = false)
    (h : resolvePositional ctx d.args = .ok (some args))
    (hhooks : ∃ l, call_post_construct (d.factory args []) = .ok l) :
    instantiate ctx d =
      (record ctx d.name (d.factory args []), .ok (some (d.factory args []))) := by
  obtain ⟨l, hl⟩ := hhooks
  simp only [instantiate, resolve_dependencies_simple ctx d hk hv, h, Except.map,
    Option.map_some', hl]

/-- Coherence concerns only the two registry maps, so replacing the
pending list keeps it. -/
theorem coherent_set_defs {S : List BeanDef} {out : BeanDef → Nat} {ctx : Ctx}
    {done : List BeanDef} (hco : Coherent S out ctx done) (ds : List BeanDef) :
    Coherent S out { ctx with bean_defs := ds } done := by
  refine ⟨hco.sub, ?_, hco.namesNone, hco.typesNone⟩
  intro d hd
  obtain ⟨args, h1, h2, h3⟩ := hco.resolved d hd
  exact ⟨args, (@resolvePositional_eq_of_types
    { ctx with bean_defs := ds } ctx rfl d.args).trans h1, h2, h3⟩

/-- Instantiating a fresh definition whose dependencies are already done
preserves coherence, with the definition joining the done set. -/
theorem coherent_record (S : List BeanDef) (out : BeanDef → Nat) (r : Name → Nat)
    (hS : SimpleSystem S out r) {ctx : Ctx} {done : List BeanDef} {d : BeanDef}
    {args : List Obj}
    (hco : Coherent S out ctx done) (hdS : d ∈ S)
    (hfresh : ∀ d0 ∈ done, d0.name ≠ d.name)
    (hargs : resolvePositional ctx d.args = .ok (some args)) :
    Coherent S out (record ctx d.name (d.factory args [])) (done ++ [d]) := by
  have hty : (d.factory args []).ty = out d := hS.factoryTy d hdS args []
  have htypes : ∀ t, lookupTypes (record ctx d.name (d.factory args [])).bean_types_map t =
      if out d = t then lookupTypes ctx.bean_types_map t ++ [d.factory args []]
      else lookupTypes ctx.bean_types_map t := by
    intro t
    simp only [record]
    rw [lookupTypes_appendType, hty]
  have hnmself : lookupName (record ctx d.name (d.factory args [])).bean_names_map d.name =
      some (d.factory args []) := by
    simp only [record]
    exact (lookupName_assignName ctx.bean_names_map d.name d.name _).1
  have hnmother : ∀ n', n' ≠ d.name →
      lookupName (record ctx d.name (d.factory args [])).bean_names_map n' =
      lookupName ctx.bean_names_map n' := by
    intro n' h
    simp only [record]
    exact (lookupName_assignName ctx.bean_names_map d.name n' _).2 h
  have hprodDone : ∀ t, lookupTypes ctx.bean_types_map t ≠ [] → ∃ d' ∈ done, out d' = t := by
    intro t hne
    by_contra hcon
    push_neg at hcon
    exact hne (hco.typesNone t hcon)
  have hne_outd : ∀ t, (∃ d' ∈ done, out d' = t) → out d ≠ t := by
    rintro t ⟨d', hd', rfl⟩ h
    have hdd : d = d' := hS.outInj d hdS d' (hco.sub d' hd') h
    exact hfresh d' hd' (by rw [← hdd])
  have hcongr : ∀ l : List (Name × Option Nat),
      (∀ a t, (a, some t) ∈ l → out d ≠ t) →
      resolvePositional (record ctx d.name (d.factory args [])) l =
        resolvePositional ctx l := by
    intro l hl
    apply resolvePositional_congr
    intro a t hmem
    rw [htypes t, if_neg (hl a t hmem)]
  have hargTypes : ∀ (l : List (Name × Option Nat)) (args0 : List Obj),
      resolvePositional ctx l = .ok (some args0) →
      ∀ a t, (a, some t) ∈ l → out d ≠ t := by
    intro l args0 hres a t hmem
    obtain ⟨t', ht', hne⟩ := resolvePositional_ok_some_types ctx l args0 hres (a, some t) hmem
    have ht'' : some t = some t' := ht'
    cases ht''
    exact hne_outd t (hprodDone t hne)
  have hnotdone : ∀ d0 ∈ done, out d0 ≠ out d := by
    intro d0 hd0 h
    have hdd : d0 = d := hS.outInj d0 (hco.sub d0 hd0) d hdS h
    exact hfresh d0 hd0 (by rw [hdd])
  refine ⟨?_, ?_, ?_, ?_⟩
  · intro d0 hd0
    rcases List.mem_append.mp hd0 with h | h
    · exact hco.sub d0 h
    · rcases List.mem_cons.mp h with rfl | h'
      · exact hdS
      · cases h'
  · intro d0 hd0
    rcases List.mem_append.mp hd0 with h | h
    · obtain ⟨args0, h1, h2, h3⟩ := hco.resolved d0 h
      refine ⟨args0, ?_, ?_, ?_⟩
      · exact (hcongr d0.args (hargTypes d0.args args0 h1)).trans h1
      · exact (hnmother d0.name (fun hc => hfresh d0 h hc)).trans h2
      · rw [htypes (out d0), if_neg (fun hc => hnotdone d0 h hc.symm)]
        exact h3
    · rcases List.mem_cons.mp h with rfl | h'
      · refine ⟨args, ?_, hnmself, ?_⟩
        · exact (hcongr d0.args (hargTypes d0.args args hargs)).trans hargs
        · rw [htypes (out d0), if_pos rfl, hco.typesNone (out d0) hnotdone]
          rfl
      · cases h'
  · intro n hn
    have hdn : d.name ≠ n := hn d (List.mem_append_right _ (List.mem_cons_self d []))
    rw [hnmother n (fun hc => hdn hc.symm)]
    exact hco.namesNone n (fun d0 hd0 => hn d0 (List.mem_append_left _ hd0))
  · intro t ht
    have hdt : out d ≠ t := ht d (List.mem_append_right _ (List.mem_cons_self d []))
    rw [htypes t, if_neg hdt]
    exact hco.typesNone t (fun d0 hd0 => ht d0 (List.mem_append_left _ hd0))

/-- One pass of the scan over a coherent state either defers every
definition it visits or instantiates the first resolvable one, staying
coherent. -/
theorem refreshPassAux_simple (S : List BeanDef) (out : BeanDef → Nat)
    (r : Name → Nat) (hS : SimpleSystem S out r) :
    ∀ (l : List BeanDef) (ctx : Ctx) (done prev : List BeanDef),
      Coherent S out ctx done →
      (done ++ (prev ++ l)).Perm S →
      (refreshPassAux ctx prev l = ({ ctx with bean_defs := prev ++ l }, .ok false) ∧
         ∀ d ∈ l, resolvePositional ctx d.args = .ok none) ∨
      (∃ ctx1 done1, refreshPassAux ctx prev l = (ctx1, .ok true) ∧
         Coherent S out ctx1 done1 ∧ (done1 ++ ctx1.bean_defs).Perm S) := by
  intro l
  induction l with
  | nil =>
    intro ctx done prev hco hperm
    left
    refine ⟨?_, ?_⟩
    · simp [refreshPassAux]
    · intro d hd; cases hd
  | cons d rest ih =>
    intro ctx done prev hco hperm
    have hdS : d ∈ S := hperm.mem_iff.mp (by simp)
    have hk := hS.kwonlyNil d hdS
    have hv := hS.varkwFalse d hdS
    rcases resolvePositional_coherent_total hco d.args with hdefer | ⟨args, hargs⟩
    · have hi : instantiate ctx d = (ctx, .ok none) := instantiate_defer hk hv hdefer
      have hperm' : (done ++ ((prev ++ [d]) ++ rest)).Perm S := by
        rw [List.append_assoc prev [d] rest]
        exact hperm
      rcases ih ctx done (prev ++ [d]) hco hperm' with ⟨hA, hall⟩ | hB
      · left
        refine ⟨?_, ?_⟩
        · rw [refreshPassAux, hi]
          dsimp only
          rw [hA, List.append_assoc prev [d] rest]
          rfl
        · intro d' hd'
          rcases List.mem_cons.mp hd' with rfl | hd''
          · exact hdefer
          · exact hall d' hd''
      · right
        obtain ⟨ctx1, done1, hpass, hco1, hperm1⟩ := hB
        refine ⟨ctx1, done1, ?_, hco1, hperm1⟩
        rw [refreshPassAux, hi]
        dsimp only
        exact hpass
    · have hfresh : ∀ d0 ∈ done, d0.name ≠ d.name := by
        have hnodup : ((done ++ (prev ++ d :: rest)).map (·.name)).Nodup :=
          ((hperm.map (·.name)).nodup_iff).mpr hS.namesNodup
        rw [List.map_append] at hnodup
        intro d0 hd0 hc
        have hdisj := (List.nodup_append.mp hnodup).2.2
        exact hdisj (List.mem_map_of_mem _ hd0)
          (by rw [hc]; exact List.mem_map_of_mem _ (by simp))
      have hi : instantiate ctx d =
          (record ctx d.name (d.factory args []), .ok (some (d.factory args []))) :=
        instantiate_success hk hv hargs (hS.factoryHooksOk d hdS args [])
      right
      have htruthy := hS.factoryTruthy d hdS args []
      have hco1 := coherent_record S out r hS hco hdS hfresh hargs
      refine ⟨{ record ctx d.name (d.factory args []) with bean_defs := prev ++ rest },
        done ++ [d], ?_, coherent_set_defs hco1 (prev ++ rest), ?_⟩
      · rw [refreshPassAux, hi]
        dsimp only
        rw [if_pos htruthy]
      · have hstep : (d :: (prev ++ rest)).Perm (prev ++ d :: rest) :=
          List.perm_middle.symm
        have hsh : ((done ++ [d]) ++ (prev ++ rest)).Perm (done ++ (prev ++ d :: rest)) := by
          rw [List.append_assoc done [d] (prev ++ rest)]
          exact List.Perm.append_left done hstep
        exact hsh.trans hperm

/-- Pass-level dichotomy for coherent states. -/
theorem refreshPass_simple (S : List BeanDef) (out : BeanDef → Nat)
    (r : Name → Nat) (hS : SimpleSystem S out r) {ctx : Ctx} {done : List BeanDef}
    (hco : Coherent S out ctx done) (hperm : (done ++ ctx.bean_defs).Perm S) :
    (refreshPass ctx = (ctx, .ok false) ∧
       ∀ d ∈ ctx.bean_defs, resolvePositional ctx d.args = .ok none) ∨
    (∃ ctx1 done1, refreshPass ctx = (ctx1, .ok true) ∧
       Coherent S out ctx1 done1 ∧ (done1 ++ ctx1.bean_defs).Perm S) := by
  rcases refreshPassAux_simple S out r hS ctx.bean_defs ctx done [] hco
      (by simpa using hperm) with ⟨hA, hall⟩ | ⟨ctx1, done1, hpass, hco1, hperm1⟩
  · left
    exact ⟨by rw [refreshPass]; exact hA, hall⟩
  · right
    exact ⟨ctx1, done1, by rw [refreshPass]; exact hpass, hco1, hperm1⟩

/-- A coherent state with pending definitions always makes progress: the
pending definition of smallest rank has all its producers done. -/
theorem coherent_progress (S : List BeanDef) (out : BeanDef → Nat) (r : Name → Nat)
    (hS : SimpleSystem S out r) {ctx : Ctx} {done : List BeanDef}
    (hco : Coherent S out ctx done) (hperm : (done ++ ctx.bean_defs).Perm S)
    (hne : ctx.bean_defs ≠ [])
    (hall : ∀ d ∈ ctx.bean_defs, resolvePositional ctx d.args = .ok none) :
    False := by
  obtain ⟨dm, hdm, hmin⟩ := exists_min_rank (fun d => r d.name) ctx.bean_defs hne
  have hdmS : dm ∈ S := hperm.mem_iff.mp (List.mem_append_right _ hdm)
  have hdeps : ∀ p ∈ dm.args, ∃ t, p.2 = some t ∧ ∃ d' ∈ done, out d' = t := by
    intro p hp
    obtain ⟨t, hpt, d', hd'S, hout⟩ := hS.complete dm hdmS p hp
    refine ⟨t, hpt, d', ?_, hout⟩
    rcases List.mem_append.mp (hperm.mem_iff.mpr hd'S) with hdone | hpend
    · exact hdone
    · exfalso
      have hmem : (p.1, some t) ∈ dm.args := by
        rw [← hpt, Prod.mk.eta]
        exact hp
      have hrank := hS.ranked dm hdmS d' hd'S ⟨p.1, t, hmem, hout⟩
      have hge := hmin d' hpend
      omega
  obtain ⟨args, hargs⟩ := resolvePositional_all_done hco dm.args hdeps
  rw [hall dm hdm] at hargs
  cases hargs

/-- One unfolding of the refresh loop over a productive pass. -/
theorem refreshFuel_succ_progress {ctx ctx1 : Ctx} {fuel : Nat}
    (h : refreshPass ctx = (ctx1, .ok true)) :
    refreshFuel (fuel + 1) ctx = refreshFuel fuel ctx1 := by
  simp only [refreshFuel, h]

/-- On a coherent state over a simple system, refresh succeeds, empties
the pending list and ends in a coherent state whose done set is the whole
system. -/
theorem refresh_simple (S : List BeanDef) (out : BeanDef → Nat) (r : Name → Nat)
    (hS : SimpleSystem S out r) :
    ∀ (n : Nat) (ctx : Ctx) (done : List BeanDef),
      ctx.bean_defs.length = n →
      Coherent S out ctx done →
      (done ++ ctx.bean_defs).Perm S →
      ∃ ctxF doneF, refresh ctx = (ctxF, none) ∧ ctxF.bean_defs = [] ∧
        Coherent S out ctxF doneF ∧ doneF.Perm S := by
  intro n
  induction n using Nat.strong_induction_on with
  | _ n ih =>
    intro ctx done hlen hco hperm
    rcases refreshPass_simple S out r hS hco hperm with
      ⟨hpass, hall⟩ | ⟨ctx1, done1, hpass, hco1, hperm1⟩
    · cases hd : ctx.bean_defs with
      | nil =>
        refine ⟨ctx, done, ?_, hd, hco, by simpa [hd] using hperm⟩
        rw [refresh, hd]
        simp only [List.length_nil, refreshFuel, hpass, hd]
        rfl
      | cons x xs =>
        exact absurd hall
          (fun h => coherent_progress S out r hS hco hperm (by rw [hd]; simp) h)
    · have hlt := refreshPass_progress_length hpass
      obtain ⟨ctxF, doneF, hrefresh, hempty, hcoF, hpermF⟩ :=
        ih ctx1.bean_defs.length (by omega) ctx1 done1 rfl hco1 hperm1
      refine ⟨ctxF, doneF, ?_, hempty, hcoF, hpermF⟩
      rw [refresh]
      obtain ⟨m, hm⟩ : ∃ m, ctx.bean_defs.length = m + 1 :=
        ⟨ctx1.bean_defs.length, by omega⟩
      rw [hm]
      have hstable : refreshFuel (m + 1) ctx1 = refresh ctx1 :=
        refreshFuel_congr ctx1.bean_defs.length ctx1 (m + 1)
          (ctx1.bean_defs.length + 1) rfl (by omega) (by omega)
      rw [refreshFuel_succ_progress hpass, hstable, hrefresh]

/-- Any two complete coherent states over the same simple system have
identical name and type maps. -/
theorem coherent_final_eq (S : List BeanDef) (out : BeanDef → Nat) (r : Name → Nat)
    (hS : SimpleSystem S out r) {c1 c2 : Ctx} {done1 done2 : List BeanDef}
    (hco1 : Coherent S out c1 done1) (hp1 : done1.Perm S)
    (hco2 : Coherent S out c2 done2) (hp2 : done2.Perm S) :
    (∀ n, lookupName c1.bean_names_map n = lookupName c2.bean_names_map n) ∧
    (∀ t, lookupTypes c1.bean_types_map t = lookupTypes c2.bean_types_map t) := by
  have main : ∀ (k : Nat), ∀ d ∈ S, r d.name < k →
      ∃ v, lookupName c1.bean_names_map d.name = some v ∧
        lookupName c2.bean_names_map d.name = some v ∧
        lookupTypes c1.bean_types_map (out d) = [v] ∧
        lookupTypes c2.bean_types_map (out d) = [v] := by
    intro k
    induction k using Nat.strong_induction_on with
    | _ k ih =>
      intro d hdS hdk
      have hd1 : d ∈ done1 := hp1.mem_iff.mpr hdS
      have hd2 : d ∈ done2 := hp2.mem_iff.mpr hdS
      obtain ⟨args1, ha1, hn1, ht1⟩ := hco1.resolved d hd1
      obtain ⟨args2, ha2, hn2, ht2⟩ := hco2.resolved d hd2
      have hcongr : resolvePositional c1 d.args = resolvePositional c2 d.args := by
        apply resolvePositional_congr
        intro a t hmem
        obtain ⟨t', hpt, d', hd'S, hout⟩ := hS.complete d hdS (a, some t) hmem
        have hpt' : some t = some t' := hpt
        cases hpt'
        have hrank : r d'.name < r d.name := hS.ranked d hdS d' hd'S ⟨a, t, hmem, hout⟩
        obtain ⟨v, -, -, hty1, hty2⟩ := ih (r d.name) hdk d' hd'S hrank
        rw [← hout, hty1, hty2]
      rw [hcongr, ha2] at ha1
      have hargs : args2 = args1 := Option.some.inj (Except.ok.inj ha1)
      subst hargs
      exact ⟨d.factory args2 [], hn1, hn2, ht1, ht2⟩
  constructor
  · intro n
    by_cases h : ∃ d ∈ S, d.name = n
    · obtain ⟨d, hdS, rfl⟩ := h
      obtain ⟨v, h1, h2, -, -⟩ := main (r d.name + 1) d hdS (Nat.lt_succ_self _)
      rw [h1, h2]
    · push_neg at h
      rw [hco1.namesNone n (fun d hd => h d (hp1.mem_iff.mp hd)),
        hco2.namesNone n (fun d hd => h d (hp2.mem_iff.mp hd))]
  · intro t
    by_cases h : ∃ d ∈ S, out d = t
    · obtain ⟨d, hdS, rfl⟩ := h
      obtain ⟨v, -, -, h3, h4⟩ := main (r d.name + 1) d hdS (Nat.lt_succ_self _)
      rw [h3, h4]
    · push_neg at h
      rw [hco1.typesNone t (fun d hd => h d (hp1.mem_iff.mp hd)),
        hco2.typesNone t (fun d hd => h d (hp2.mem_iff.mp hd))]

/-- A true edge check really bounds every dependency edge by rank. -/
theorem edgeRankOk_ranked {S : List BeanDef} {out : BeanDef → Nat} {r : Name → Nat}
    (h : edgeRankOk S out r = true) :
    ∀ d ∈ S, ∀ d' ∈ S, DependsOn out d d' → r d'.name < r d.name := by
  rintro d hd d' hd' ⟨a, t, hmem, hout⟩
  have h1 := (List.all_eq_true.mp h) d hd
  have h2 := (List.all_eq_true.mp h1) (a, some t) hmem
  have h3 := (List.all_eq_true.mp h2) d' hd'
  have h4 : (!(decide (out d' = t)) || decide (r d'.name < r d.name)) = true := h3
  rcases Bool.or_eq_true_iff.mp h4 with hl | hr
  · rw [Bool.not_eq_true'] at hl
    exact absurd hout (of_decide_eq_false hl)
  · exact of_decide_eq_true hr

/-- C2: the claim fails on the code.  The set a_bean, b_bean, c_bean is
acyclic (the executable edge check certifies a rank function decreasing
along every dependency edge), yet the order a, b, c aborts refresh with
the ambiguity error while the orders a, c, b and b, c, a succeed and wire
different instances into c_bean. -/
theorem c2_acyclic_set_is_order_dependent :
    edgeRankOk c2defs c2out c2rank = true ∧
    [c2dA, c2dC, c2dB].Perm c2defs ∧
    [c2dB, c2dC, c2dA].Perm c2defs ∧
    (refresh ⟨[c2dA, c2dC, c2dB], [], []⟩).2 = none ∧
    (refresh ⟨[c2dB, c2dC, c2dA], [], []⟩).2 = none ∧
    (refresh ⟨[c2dA, c2dB, c2dC], [], []⟩).2 = some (.ambiguous (nm "t") 1) ∧
    get_bean_name (refresh ⟨[c2dA, c2dC, c2dB], [], []⟩).1 (nm "c_bean") ≠
      get_bean_name (refresh ⟨[c2dB, c2dC, c2dA], [], []⟩).1 (nm "c_bean") := by
  refine ⟨by decide, ?_, ?_, by decide, by decide, by decide, by decide⟩
  · exact List.Perm.cons c2dA (List.Perm.swap c2dB c2dC [])
  · exact @List.perm_middle _ c2dA [c2dB, c2dC] []

/-- C2 amended: for a set of definitions with pairwise distinct names,
only type-tagged positional parameters, no two definitions producing the
same runtime type, every needed type produced by some definition, truthy
instances with non-raising hooks, and an acyclic dependency graph,
refresh from an empty registry succeeds under every registration order
and the final name map and type map are the same point for point across
all orders. -/
theorem c2_amended_unique_type_confluence (S L1 L2 : List BeanDef)
    (out : BeanDef → Nat) (r : Name → Nat) (hS : SimpleSystem S out r)
    (h1 : L1.Perm S) (h2 : L2.Perm S) :
    (refresh ⟨L1, [], []⟩).2 = none ∧
    (refresh ⟨L2, [], []⟩).2 = none ∧
    (refresh ⟨L1, [], []⟩).1.bean_defs = [] ∧
    (refresh ⟨L2, [], []⟩).1.bean_defs = [] ∧
    (∀ n, lookupName (refresh ⟨L1, [], []⟩).1.bean_names_map n =
          lookupName (refresh ⟨L2, [], []⟩).1.bean_names_map n) ∧
    (∀ t, lookupTypes (refresh ⟨L1, [], []⟩).1.bean_types_map t =
          lookupTypes (refresh ⟨L2, [], []⟩).1.bean_types_map t) := by
  have hco1 : Coherent S out ⟨L1, [], []⟩ [] := by
    refine ⟨?_, ?_, ?_, ?_⟩
    · intro d hd; cases hd
    · intro d hd; cases hd
    · intro n _; rfl
    · intro t _; rfl
  have hco2 : Coherent S out ⟨L2, [], []⟩ [] := by
    refine ⟨?_, ?_, ?_, ?_⟩
    · intro d hd; cases hd
    · intro d hd; cases hd
    · intro n _; rfl
    · intro t _; rfl
  obtain ⟨cF1, dF1, hr1, he1, hcoF1, hpF1⟩ :=
    refresh_simple S out r hS L1.length ⟨L1, [], []⟩ [] rfl hco1 h1
  obtain ⟨cF2, dF2, hr2, he2, hcoF2, hpF2⟩ :=
    refresh_simple S out r hS L2.length ⟨L2, [], []⟩ [] rfl hco2 h2
  obtain ⟨hnm, hty⟩ := coherent_final_eq S out r hS hcoF1 hpF1 hcoF2 hpF2
  rw [hr1, hr2]
  exact ⟨rfl, rfl, he1, he2, hnm, hty⟩

/-- The two-definition witness system is simple. -/
theorem c2wSimple : SimpleSystem c2wS c2wOut c2wRank := by
  refine ⟨by decide, ?_, ?_, ?_, ?_, ?_, ?_, ?_, ?_⟩
  · intro d hd
    simp only [c2wS, List.mem_cons, List.not_mem_nil, or_false] at hd
    rcases hd with rfl | rfl <;> rfl
  · intro d hd
    simp only [c2wS, List.mem_cons, List.not_mem_nil, or_false] at hd
    rcases hd with rfl | rfl <;> rfl
  · intro d hd as ks
    simp only [c2wS, List.mem_cons, List.not_mem_nil, or_false] at hd
    rcases hd with rfl | rfl
    · rfl
    · cases as <;> rfl
  · intro d hd as ks
    simp only [c2wS, List.mem_cons, List.not_mem_nil, or_false] at hd
    rcases hd with rfl | rfl
    · rfl
    · cases as <;> rfl
  · intro d hd as ks
    simp only [c2wS, List.mem_cons, List.not_mem_nil, or_false] at hd
    rcases hd with rfl | rfl
    · exact ⟨[], rfl⟩
    · cases as <;> exact ⟨[], rfl⟩
  · intro d hd d' hd'
    simp only [c2wS, List.mem_cons, List.not_mem_nil, or_false] at hd hd'
    rcases hd with rfl | rfl <;> rcases hd' with rfl | rfl <;> intro h
    · rfl
    · exact absurd h (by decide)
    · exact absurd h (by decide)
    · rfl
  · intro d hd p hp
    simp only [c2wS, List.mem_cons, List.not_mem_nil, or_false] at hd
    rcases hd with rfl | rfl
    · simp [c2wA] at hp
    · simp only [c2wB, List.mem_cons, List.not_mem_nil, or_false] at hp
      subst hp
      exact ⟨1, rfl, c2wA, by simp [c2wS], rfl⟩
  · intro d hd d' hd' hdep
    obtain ⟨a, t, hmem, hout⟩ := hdep
    simp only [c2wS, List.mem_cons, List.not_mem_nil, or_false] at hd hd'
    rcases hd with rfl | rfl
    · simp [c2wA] at hmem
    · simp only [c2wB, List.mem_cons, List.not_mem_nil, or_false] at hmem
      obtain ⟨-, ht⟩ := Prod.mk.injEq .. ▸ hmem
      have ht' : t = 1 := Option.some.inj ht
      subst ht'
      rcases hd' with rfl | rfl
      · decide
      · exact absurd hout (by decide)

/-- C2 amended witness: the two orders of the witness system both succeed
with identical final maps. -/
theorem c2_amended_unique_type_confluence_witness :
    (refresh ⟨[c2wA, c2wB], [], []⟩).2 = none ∧
    (refresh ⟨[c2wB, c2wA], [], []⟩).2 = none ∧
    (refresh ⟨[c2wA, c2wB], [], []⟩).1.bean_defs = [] ∧
    (refresh ⟨[c2wB, c2wA], [], []⟩).1.bean_defs = [] ∧
    lookupName (refresh ⟨[c2wA, c2wB], [], []⟩).1.bean_names_map (nm "dep_user") =
      lookupName (refresh ⟨[c2wB, c2wA], [], []⟩).1.bean_names_map (nm "dep_user") ∧
    lookupTypes (refresh ⟨[c2wA, c2wB], [], []⟩).1.bean_types_map 2 =
      lookupTypes (refresh ⟨[c2wB, c2wA], [], []⟩).1.bean_types_map 2 := by
  obtain ⟨h1, h2, h3, h4, h5, h6⟩ :=
    c2_amended_unique_type_confluence c2wS [c2wA, c2wB] [c2wB, c2wA] c2wOut c2wRank
      c2wSimple (List.Perm.refl _) (List.Perm.swap c2wA c2wB [])
  exact ⟨h1, h2, h3, h4, h5 (nm "dep_user"), h6 2⟩

/-- C4 witness at the mutually dependent pair. -/
theorem c4_refresh_terminates_and_reports_all_pending_witness :
    refreshFuel 5 c4ctx = refresh c4ctx ∧
    (refresh c4ctx).2 = some (.unresolvable [nm "d1", nm "d2"]) ∧
    refresh ⟨[c4d1, c4d2], [], []⟩ =
      (⟨[c4d1, c4d2], [], []⟩, some (.unresolvable [nm "d1", nm "d2"])) :=
  ⟨c4_refresh_terminates_and_reports_all_pending.1 c4ctx 5 (by decide),
   c4_refresh_terminates_and_reports_all_pending.2.1 c4ctx ⟨[c4d1, c4d2], [], []⟩
     rfl (by simp),
   c4_refresh_terminates_and_reports_all_pending.2.2 c4d1 c4d2 (nm "a1") (nm "a2")
     1 2 [] [] (by decide) (by decide) (fun _ _ => rfl) (fun _ _ => rfl)⟩

end Appctx
